import Mathlib

/-!
Verification of the Ai-Review application: a shallow embedding of the
Review Client (the `Home` component in `src/backend/app.js`: `submitHandler`,
`handleCopyAll`, `handleCopyCode`) and the Review Gateway
(`main` in `src/backend/services/ai.service.js`), together with proofs of
the specification's testable properties.
-/

namespace AiReview

/-- The backtick character, U+0060. -/
def bq : Char := Char.ofNat 96

/-- A triple backtick, the fence delimiter of the extraction regex. -/
def fence : List Char := [bq, bq, bq]

/-- Word character of the JS regex class `\w`, i.e. [A-Za-z0-9_]. -/
def isWordChar (c : Char) : Bool := c.isAlphanum || c = '_'

/-- Whitespace as stripped by JS `String.prototype.trim` (the ASCII part:
space, tab, newline, carriage return, vertical tab, form feed). -/
def isJsWhitespace (c : Char) : Bool :=
  c = ' ' || c = '\t' || c = '\n' || c = '\r' || c = '\x0b' || c = '\x0c'

/-- Strip leading and trailing whitespace from a character list, as JS
`String.prototype.trim` does. -/
def trimChars (l : List Char) : List Char :=
  ((l.dropWhile isJsWhitespace).reverse.dropWhile isJsWhitespace).reverse

/-- JS `s.trim()`. -/
def jsTrim (s : String) : String := ⟨trimChars s.data⟩

/-- Does the text begin with a triple backtick? -/
def startsFence (l : List Char) : Bool := decide (l.take 3 = fence)

/-- Lazy search for the earliest closing triple backtick, the
behaviour of the regex fragment that follows the capture: the capture
group matches as few characters as possible, so the content runs up to the
first occurrence of a closing fence.  Returns the content before the fence
and the text after it, or `none` when no fence occurs. -/
def findClose : List Char → Option (List Char × List Char)
  | [] => none
  | c :: rest =>
    if startsFence (c :: rest) then some ([], rest.drop 2)
    else
      match findClose rest with
      | some (content, after) => some (c :: content, after)
      | none => none

/-- One pass of the JS scan
`review.matchAll(/` ``` `(?:\w+)?\n([\s\S]*?)` ``` `/g)` in `handleCopyCode`:
at each position, an opening triple backtick followed by an optional
word-character language tag and a newline starts a match whose capture runs
lazily to the first closing triple backtick; the scan resumes after the
closing fence.  A failed match attempt advances the scan by one character,
as the JS regex engine does.  One unit of fuel is spent per scan step, so
fuel `s.length` always suffices. -/
def matchAllAux : Nat → List Char → List (List Char)
  | 0, _ => []
  | fuel + 1, s =>
    match s with
    | [] => []
    | _ :: rest =>
      if startsFence s then
        match (rest.drop 2).dropWhile isWordChar with
        | '\n' :: body =>
          match findClose body with
          | some (content, after) => content :: matchAllAux fuel after
          | none => matchAllAux fuel rest
        | _ => matchAllAux fuel rest
      else matchAllAux fuel rest

/-- All capture groups produced by the `matchAll` scan, in document order,
untrimmed. -/
def matchAllBlocks (s : List Char) : List (List Char) := matchAllAux s.length s

/-- Extraction pipeline of `handleCopyCode`: every fenced block's capture,
trimmed, in document order. -/
def extractCodeBlocks (review : String) : List String :=
  (matchAllBlocks review.data).map fun content => (⟨trimChars content⟩ : String)

/-- Observable outcome of a copy handler: which toast fires, and what, if
anything, is written to the clipboard. -/
inductive CopyOutcome where
  | nothingToCopy
  | noCodeFound
  | copied (text : String)
deriving DecidableEq, Repr

/-- Clipboard writes performed by a copy handler run. -/
def clipboardWrites : CopyOutcome → List String
  | .copied t => [t]
  | _ => []

/-- The `handleCopyAll` handler: with no review present it toasts
"Nothing to copy"; otherwise it writes the full raw review text. -/
def handleCopyAll (review : String) : CopyOutcome :=
  if review = "" then .nothingToCopy else .copied review

/-- The `handleCopyCode` handler: with no review present it toasts
"Nothing to copy"; with a review but no fenced blocks it toasts
"No code found in review!"; otherwise it writes the trimmed blocks joined
by a blank line. -/
def handleCopyCode (review : String) : CopyOutcome :=
  if review = "" then .nothingToCopy
  else
    let codeBlocks := extractCodeBlocks review
    if codeBlocks = [] then .noCodeFound
    else .copied (String.intercalate "\n\n" codeBlocks)

/-- Does the text contain a triple backtick anywhere? -/
def hasTBT : List Char → Bool
  | [] => false
  | c :: rest => startsFence (c :: rest) || hasTBT rest

/-- Is the first character a newline? -/
def headIsNewline : List Char → Bool
  | '\n' :: _ => true
  | _ => false

/-- Reassemble a decomposition of a review text: each segment is
(gap before the match, language tag, capture content), followed by the
remainder after the last match. -/
def reassemble : List (List Char × List Char × List Char) → List Char → List Char
  | [], rem => rem
  | (gap, tag, content) :: rest, rem =>
      gap ++ fence ++ tag ++ '\n' :: (content ++ fence ++ reassemble rest rem)

/-- Observable state of the `Home` component: the `code`, `review` and
`loading` `useState` hooks. -/
structure ClientState where
  code : String
  review : String
  loading : Bool
deriving DecidableEq, Repr

/-- Response body of the gateway POST as axios delivers it: a plain string,
or a JSON object, which the client stores as `JSON.stringify(data, null, 2)`;
an object value here carries that pretty-printed rendering. -/
inductive ResponseData where
  | strData (s : String)
  | objData (pretty : String)
deriving DecidableEq, Repr

/-- The string `submitHandler` stores into `review` on success:
`typeof data === "object" ? JSON.stringify(data, null, 2) : data`. -/
def renderData : ResponseData → String
  | .strData s => s
  | .objData pretty => pretty

/-- How the awaited POST settles: the promise resolves with a body, or it
rejects (network failure, gateway error, or any exception raised inside the
`try` block). -/
inductive SubmitOutcome where
  | success (data : ResponseData)
  | failure
deriving DecidableEq, Repr

/-- User-visible notifications raised by `submitHandler`. -/
inductive Notification where
  | alertEmptyCode
  | toastSuccess
  | toastFailure
deriving DecidableEq, Repr

/-- A complete run of `submitHandler`: the final component state, the
successive values taken by the `loading` flag (at entry, then after each
`setLoading` call), the POST payloads dispatched, and the notifications
shown. -/
structure SubmitResult where
  finalState : ClientState
  loadingTrace : List Bool
  networkCalls : List String
  notifications : List Notification
deriving DecidableEq, Repr

/-- The `submitHandler` of the `Home` component.  Empty-after-trim code
alerts and returns before any state change or network call.  Otherwise
`setLoading(true)` runs, the POST is awaited, and on resolution the success
toast fires, the review is stored and the code input is cleared; on
rejection (or an exception inside the `try` block) the failure toast fires;
the `finally` block then runs `setLoading(false)` on every path. -/
def submitHandler (s : ClientState) (outcome : SubmitOutcome) : SubmitResult :=
  if jsTrim s.code = "" then
    { finalState := s, loadingTrace := [s.loading],
      networkCalls := [], notifications := [.alertEmptyCode] }
  else
    match outcome with
    | .success data =>
      { finalState := { code := "", review := renderData data, loading := false },
        loadingTrace := [s.loading, true, false],
        networkCalls := [s.code],
        notifications := [.toastSuccess] }
    | .failure =>
      { finalState := { s with loading := false },
        loadingTrace := [s.loading, true, false],
        networkCalls := [s.code],
        notifications := [.toastFailure] }

/-- How the provider call inside the gateway settles:
`model.generateContent` returns a response whose extracted text is `text`,
or it throws with error `e` (network error, auth error, malformed
response alike). -/
inductive ProviderResult where
  | ok (text : String)
  | err (e : String)
deriving DecidableEq, Repr

/-- A complete run of the gateway's `main`: what it returns or throws,
what it logs, and how many provider calls it made. -/
structure GatewayRun where
  result : Except String String
  logs : List String
  providerCalls : Nat
deriving Repr

/-- The `main` function of `ai.service.js`: one `generateContent` call
inside a `try`; on success the extracted response text is returned
verbatim; on any error the catch block logs
`console.error("Error generating content:", error)` and rethrows the same
error. -/
def main (providerResult : ProviderResult) : GatewayRun :=
  match providerResult with
  | .ok text =>
      { result := .ok text, logs := [], providerCalls := 1 }
  | .err e =>
      { result := .error e,
        logs := ["Error generating content: " ++ e],
        providerCalls := 1 }

theorem startsFence_cons_false {c : Char} (t : List Char) (h : c ≠ bq) :
    startsFence (c :: t) = false := by
  simp only [startsFence, fence, List.take_succ_cons, decide_eq_false_iff_not]
  intro hEq
  exact h (List.cons.injEq .. ▸ hEq).1

theorem startsFence_short {l : List Char} (h : l.length < 3) : startsFence l = false := by
  simp only [startsFence, decide_eq_false_iff_not]
  intro hEq
  have hlen := congrArg List.length hEq
  simp only [List.length_take, fence, List.length_cons, List.length_nil] at hlen
  omega

theorem startsFence_congr {a b : List Char} (h : a.take 3 = b.take 3) :
    startsFence a = startsFence b := by
  simp only [startsFence, h]

theorem startsFence_elim {l : List Char} (h : startsFence l = true) :
    l = fence ++ l.drop 3 := by
  simp only [startsFence, decide_eq_true_eq] at h
  conv_lhs => rw [← List.take_append_drop 3 l]
  rw [h]

theorem hasTBT_append_no_bq {l₁ l₂ : List Char} (h : ∀ c ∈ l₁, c ≠ bq) :
    hasTBT (l₁ ++ l₂) = hasTBT l₂ := by
  induction l₁ with
  | nil => rfl
  | cons c t ih =>
    have hc : c ≠ bq := h c (List.mem_cons_self ..)
    rw [List.cons_append, hasTBT, startsFence_cons_false _ hc, Bool.false_or,
      ih fun x hx => h x (List.mem_cons_of_mem _ hx)]

theorem hasTBT_eq_false_of_no_bq {l : List Char} (h : ∀ c ∈ l, c ≠ bq) :
    hasTBT l = false := by
  have h2 : hasTBT (l ++ ([] : List Char)) = hasTBT [] := hasTBT_append_no_bq h
  simpa using h2

theorem findClose_fence (l : List Char) : findClose (fence ++ l) = some ([], l) := by
  show findClose (bq :: bq :: bq :: l) = _
  rw [findClose, if_pos]
  · rfl
  · simp [startsFence, fence]

theorem findClose_spec : ∀ {s content after : List Char},
    findClose s = some (content, after) →
    s = content ++ fence ++ after ∧ hasTBT content = false := by
  intro s
  induction s with
  | nil => intro content after h; simp [findClose] at h
  | cons c rest ih =>
    intro content after h
    rw [findClose] at h
    by_cases hf : startsFence (c :: rest) = true
    · rw [if_pos hf] at h
      obtain ⟨hc, ha⟩ := Prod.mk.injEq .. ▸ Option.some.injEq .. ▸ h
      subst hc ha
      refine ⟨?_, rfl⟩
      have := startsFence_elim hf
      simpa using this
    · rw [if_neg hf] at h
      cases hfc : findClose rest with
      | none => rw [hfc] at h; exact absurd h (by simp)
      | some p =>
        obtain ⟨c₀, a₀⟩ := p
        rw [hfc] at h
        obtain ⟨hc, ha⟩ := Prod.mk.injEq .. ▸ Option.some.injEq .. ▸ h
        subst hc ha
        obtain ⟨hdec, htbt⟩ := ih hfc
        refine ⟨by rw [hdec]; simp, ?_⟩
        rw [hasTBT, htbt, Bool.or_false]
        cases hc0 : c₀ with
        | nil => exact startsFence_short (by simp)
        | cons x t =>
          cases t with
          | nil => exact startsFence_short (by simp)
          | cons y t₂ =>
            rw [startsFence_congr (b := c :: rest) ?_]
            · simpa using hf
            · rw [hdec, hc0]; rfl

theorem findClose_length {s content after : List Char}
    (h : findClose s = some (content, after)) : after.length + 3 ≤ s.length := by
  have := congrArg List.length (findClose_spec h).1
  simp only [List.length_append, fence, List.length_cons, List.length_nil] at this
  omega

theorem findClose_of_no_tbt {s : List Char} (h : hasTBT s = false) :
    findClose s = none := by
  induction s with
  | nil => rfl
  | cons c rest ih =>
    rw [hasTBT, Bool.or_eq_false_iff] at h
    rw [findClose, if_neg (by simp [h.1]), ih h.2]

theorem findClose_append_no_bq {l₁ l₂ : List Char} (h : ∀ c ∈ l₁, c ≠ bq) :
    findClose (l₁ ++ fence ++ l₂) = some (l₁, l₂) := by
  induction l₁ with
  | nil => simpa using findClose_fence l₂
  | cons c t ih =>
    have hc : c ≠ bq := h c (List.mem_cons_self ..)
    have : (c :: t) ++ fence ++ l₂ = c :: (t ++ fence ++ l₂) := by simp
    rw [this, findClose, if_neg (by simp [startsFence_cons_false _ hc]),
      ih fun x hx => h x (List.mem_cons_of_mem _ hx)]

theorem matchAllAux_nil (fuel : Nat) : matchAllAux fuel [] = [] := by
  cases fuel <;> rfl

theorem matchAllAux_congr : ∀ (f₁ : Nat) (f₂ : Nat) (s : List Char),
    s.length ≤ f₁ → s.length ≤ f₂ → matchAllAux f₁ s = matchAllAux f₂ s := by
  intro f₁
  induction f₁ with
  | zero =>
    intro f₂ s h₁ _
    obtain rfl : s = [] := List.length_eq_zero.mp (Nat.le_zero.mp h₁)
    rw [matchAllAux_nil, matchAllAux_nil]
  | succ n ih =>
    intro f₂ s h₁ h₂
    cases s with
    | nil => rw [matchAllAux_nil, matchAllAux_nil]
    | cons c rest =>
      cases f₂ with
      | zero => simp at h₂
      | succ m =>
        simp only [List.length_cons, Nat.succ_le_succ_iff] at h₁ h₂
        simp only [matchAllAux]
        split
        · split
          · split
            · rename_i scr1 body heqTag scr2 content after heqClose
              have hlenTag : body.length + 1 ≤ rest.length - 2 := by
                have hsub := (List.dropWhile_sublist
                  (l := rest.drop 2) (p := isWordChar)).length_le
                rw [heqTag] at hsub
                simpa [List.length_drop] using hsub
              have hlenClose := findClose_length heqClose
              rw [ih m after (by omega) (by omega)]
            · exact ih _ _ h₁ h₂
          · exact ih _ _ h₁ h₂
        · exact ih _ _ h₁ h₂

theorem matchAllBlocks_nil : matchAllBlocks [] = [] := rfl

theorem matchAllBlocks_cons_not_fence {c : Char} {rest : List Char}
    (h : startsFence (c :: rest) = false) :
    matchAllBlocks (c :: rest) = matchAllBlocks rest := by
  show matchAllAux (rest.length + 1) (c :: rest) = _
  simp only [matchAllAux]
  rw [if_neg (by simp [h])]
  rfl

theorem matchAllBlocks_fence_success {rest body content after : List Char}
    (htag : rest.dropWhile isWordChar = '\n' :: body)
    (hfc : findClose body = some (content, after)) :
    matchAllBlocks (fence ++ rest) = content :: matchAllBlocks after := by
  have hsh : fence ++ rest = bq :: bq :: bq :: rest := by simp [fence]
  have hlen : (fence ++ rest).length = rest.length + 3 := by simp [fence]
  rw [hsh]
  show matchAllAux ((bq :: bq :: bq :: rest).length) _ = _
  simp only [List.length_cons]
  simp only [matchAllAux]
  rw [if_pos (by simp [startsFence, fence])]
  show (match (rest.dropWhile isWordChar) with
    | '\n' :: body =>
      match findClose body with
      | some (content, after) => content :: matchAllAux (rest.length + 2) after
      | none => matchAllAux (rest.length + 2) (bq :: bq :: rest)
    | _ => matchAllAux (rest.length + 2) (bq :: bq :: rest)) = _
  rw [htag]
  show (match findClose body with
    | some (content, after) => content :: matchAllAux (rest.length + 2) after
    | none => matchAllAux (rest.length + 2) (bq :: bq :: rest)) = _
  rw [hfc]
  show content :: matchAllAux (rest.length + 2) after = _
  have hlenTag := (List.dropWhile_sublist (l := rest) (p := isWordChar)).length_le
  rw [htag] at hlenTag
  simp only [List.length_cons] at hlenTag
  have hlenClose := findClose_length hfc
  rw [matchAllAux_congr (rest.length + 2) after.length after (by omega) (by omega)]
  rfl

theorem matchAllBlocks_fence_fail_close {rest body : List Char}
    (htag : rest.dropWhile isWordChar = '\n' :: body)
    (hfc : findClose body = none) :
    matchAllBlocks (fence ++ rest) = matchAllBlocks (bq :: bq :: rest) := by
  have hsh : fence ++ rest = bq :: bq :: bq :: rest := by simp [fence]
  rw [hsh]
  show matchAllAux ((bq :: bq :: bq :: rest).length) _ = _
  simp only [List.length_cons]
  simp only [matchAllAux]
  rw [if_pos (by simp [startsFence, fence])]
  show (match (rest.dropWhile isWordChar) with
    | '\n' :: body =>
      match findClose body with
      | some (content, after) => content :: matchAllAux (rest.length + 2) after
      | none => matchAllAux (rest.length + 2) (bq :: bq :: rest)
    | _ => matchAllAux (rest.length + 2) (bq :: bq :: rest)) = _
  rw [htag]
  show (match findClose body with
    | some (content, after) => content :: matchAllAux (rest.length + 2) after
    | none => matchAllAux (rest.length + 2) (bq :: bq :: rest)) = _
  rw [hfc]
  rfl

theorem matchAllBlocks_fence_fail_tag {rest : List Char}
    (htag : headIsNewline (rest.dropWhile isWordChar) = false) :
    matchAllBlocks (fence ++ rest) = matchAllBlocks (bq :: bq :: rest) := by
  have hsh : fence ++ rest = bq :: bq :: bq :: rest := by simp [fence]
  rw [hsh]
  show matchAllAux ((bq :: bq :: bq :: rest).length) _ = _
  simp only [List.length_cons]
  simp only [matchAllAux]
  rw [if_pos (by simp [startsFence, fence])]
  show (match (rest.dropWhile isWordChar) with
    | '\n' :: body =>
      match findClose body with
      | some (content, after) => content :: matchAllAux (rest.length + 2) after
      | none => matchAllAux (rest.length + 2) (bq :: bq :: rest)
    | _ => matchAllAux (rest.length + 2) (bq :: bq :: rest)) = _
  split
  · rename_i body heq
    rw [heq] at htag
    exact absurd htag (by simp [headIsNewline])
  · rfl

theorem matchAllBlocks_append_no_bq {l₁ l₂ : List Char} (h : ∀ c ∈ l₁, c ≠ bq) :
    matchAllBlocks (l₁ ++ l₂) = matchAllBlocks l₂ := by
  induction l₁ with
  | nil => rfl
  | cons c t ih =>
    have hc : c ≠ bq := h c (List.mem_cons_self ..)
    rw [List.cons_append, matchAllBlocks_cons_not_fence (startsFence_cons_false _ hc),
      ih fun x hx => h x (List.mem_cons_of_mem _ hx)]

theorem matchAllBlocks_eq_nil_of_no_tbt {s : List Char} (h : hasTBT s = false) :
    matchAllBlocks s = [] := by
  induction s with
  | nil => rfl
  | cons c rest ih =>
    rw [hasTBT, Bool.or_eq_false_iff] at h
    rw [matchAllBlocks_cons_not_fence h.1, ih h.2]

/-- Case analysis for one scan position: either a full match starts here
(opening fence, word tag, newline, and a closing fence later), or the scan
advances one character with the same result. -/
theorem matchAll_cons_cases (c : Char) (rest : List Char) :
    (∃ body content after,
        startsFence (c :: rest) = true ∧
        (rest.drop 2).dropWhile isWordChar = '\n' :: body ∧
        findClose body = some (content, after) ∧
        matchAllBlocks (c :: rest) = content :: matchAllBlocks after) ∨
      matchAllBlocks (c :: rest) = matchAllBlocks rest := by
  by_cases hf : startsFence (c :: rest) = true
  · obtain ⟨hc, hrest⟩ : c = bq ∧ rest = bq :: bq :: rest.drop 2 := by
      have := startsFence_elim hf
      simpa [fence] using this
    have hsh : c :: rest = fence ++ rest.drop 2 := by
      conv_lhs => rw [hrest]
      simp [fence, hc]
    cases htag : (rest.drop 2).dropWhile isWordChar with
    | nil =>
      right
      rw [hsh, matchAllBlocks_fence_fail_tag (by rw [htag]; rfl), ← hrest]
    | cons x body =>
      by_cases hx : x = '\n'
      · subst hx
        cases hfc : findClose body with
        | some p =>
          obtain ⟨content, after⟩ := p
          left
          exact ⟨body, content, after, hf, rfl, hfc, by
            rw [hsh, matchAllBlocks_fence_success htag hfc]⟩
        | none =>
          right
          rw [hsh, matchAllBlocks_fence_fail_close htag hfc, ← hrest]
      · right
        rw [hsh, matchAllBlocks_fence_fail_tag ?_, ← hrest]
        rw [htag]
        simp only [headIsNewline]
        split
        · rename_i heq
          simp only [List.cons.injEq] at heq
          exact absurd heq.1 hx
        · rfl
  · right
    exact matchAllBlocks_cons_not_fence (Bool.not_eq_true _ ▸ hf)

/-- Every review text decomposes into the scan's matches in document order:
for each match a gap, an opening fence, a word-character tag, a newline, the
capture (free of any triple backtick) and a closing fence, followed by a
final remainder; the captures listed by the decomposition are exactly
`matchAllBlocks`, in order. -/
theorem blocks_decomposition_aux : ∀ (n : Nat) (s : List Char), s.length ≤ n →
    ∃ segs rem,
      reassemble segs rem = s ∧
      segs.map (fun seg => seg.2.2) = matchAllBlocks s ∧
      ∀ seg ∈ segs, hasTBT seg.2.2 = false ∧ ∀ ch ∈ seg.2.1, isWordChar ch = true := by
  intro n
  induction n with
  | zero =>
    intro s hs
    obtain rfl : s = [] := List.length_eq_zero.mp (Nat.le_zero.mp hs)
    exact ⟨[], [], rfl, rfl, by simp⟩
  | succ n ih =>
    intro s hs
    cases s with
    | nil => exact ⟨[], [], rfl, rfl, by simp⟩
    | cons c rest =>
      simp only [List.length_cons, Nat.succ_le_succ_iff] at hs
      rcases matchAll_cons_cases c rest with
        ⟨body, content, after, hf, htag, hfc, hkey⟩ | hkey
      · have hshape := startsFence_elim hf
        have hdrop : (c :: rest).drop 3 = rest.drop 2 := rfl
        rw [hdrop] at hshape
        have hsplit : rest.drop 2 =
            (rest.drop 2).takeWhile isWordChar ++ '\n' :: body := by
          conv_lhs => rw [← List.takeWhile_append_dropWhile
            (p := isWordChar) (l := rest.drop 2)]
          rw [htag]
        have hbody := findClose_spec hfc
        have hlenTag : body.length + 1 ≤ rest.length - 2 := by
          have hsub := (List.dropWhile_sublist
            (l := rest.drop 2) (p := isWordChar)).length_le
          rw [htag] at hsub
          simpa [List.length_drop] using hsub
        have hlenClose := findClose_length hfc
        obtain ⟨segs, rem, h1, h2, h3⟩ := ih after (by omega)
        refine ⟨([], (rest.drop 2).takeWhile isWordChar, content) :: segs, rem,
          ?_, ?_, ?_⟩
        · rw [reassemble, h1, hshape, hsplit, hbody.1]
          simp only [List.nil_append, List.append_assoc, List.cons_append,
            List.append_cancel_left_eq]
          rw [List.takeWhile_append_of_pos
            (fun a ha => List.mem_takeWhile_imp ha)]
          rw [List.takeWhile_cons_of_neg (by simp [isWordChar])]
          simp
        · rw [List.map_cons, h2, hkey]
        · intro seg hseg
          rcases List.mem_cons.mp hseg with rfl | hseg'
          · exact ⟨hbody.2, fun ch hch => List.mem_takeWhile_imp hch⟩
          · exact h3 seg hseg'
      · obtain ⟨segs, rem, h1, h2, h3⟩ := ih rest hs
        cases segs with
        | nil =>
          refine ⟨[], c :: rem, ?_, ?_, by simp⟩
          · rw [reassemble] at h1 ⊢
            rw [h1]
          · rw [hkey]
            exact h2
        | cons seg more =>
          obtain ⟨gap, tag, content⟩ := seg
          refine ⟨(c :: gap, tag, content) :: more, rem, ?_, ?_, ?_⟩
          · rw [reassemble] at h1 ⊢
            simp only [List.cons_append]
            rw [h1]
          · rw [hkey]
            simpa using h2
          · intro seg hseg
            rcases List.mem_cons.mp hseg with rfl | hseg'
            · exact h3 (gap, tag, content) (List.mem_cons_self ..)
            · exact h3 seg (List.mem_cons_of_mem _ hseg')

theorem startsFence_false_of_second {x y : Char} (t : List Char) (h : y ≠ bq) :
    startsFence (x :: y :: t) = false := by
  simp only [startsFence, decide_eq_false_iff_not]
  intro hEq
  exact h (List.cons.injEq .. ▸ (List.cons.injEq .. ▸ hEq).2).1

theorem startsFence_false_of_third {x y z : Char} (t : List Char) (h : z ≠ bq) :
    startsFence (x :: y :: z :: t) = false := by
  simp only [startsFence, decide_eq_false_iff_not]
  intro hEq
  exact h (List.cons.injEq .. ▸ (List.cons.injEq .. ▸ (List.cons.injEq .. ▸ hEq).2).2).1

/-- A well-formed fenced block at the head of the text: word-character tag,
newline, backtick-free inner content, closing fence.  The scan captures the
inner content and resumes after the closing fence. -/
theorem matchAllBlocks_block (tag inner l₂ : List Char)
    (htag : ∀ ch ∈ tag, isWordChar ch = true)
    (hinner : ∀ ch ∈ inner, ch ≠ bq) :
    matchAllBlocks (fence ++ tag ++ '\n' :: (inner ++ fence ++ l₂)) =
      inner :: matchAllBlocks l₂ := by
  have hassoc : fence ++ tag ++ '\n' :: (inner ++ fence ++ l₂) =
      fence ++ (tag ++ '\n' :: (inner ++ fence ++ l₂)) := by simp
  have hdw : (tag ++ '\n' :: (inner ++ fence ++ l₂)).dropWhile isWordChar =
      '\n' :: (inner ++ fence ++ l₂) := by
    rw [List.dropWhile_append_of_pos htag, List.dropWhile_cons_of_neg (by decide)]
  rw [hassoc, matchAllBlocks_fence_success hdw (findClose_append_no_bq hinner)]

/-- C1: for every stored review text that consists of the two fenced blocks
"js foo()" and "py bar()" in that order, surrounded and separated by
backtick-free text, `handleCopyCode` copies the joined text
"foo()\n\nbar()": each block's inner content is trimmed, blocks are joined
with a blank-line separator, and document order is preserved. -/
theorem copyCode_two_blocks (a b c : List Char)
    (ha : ∀ ch ∈ a, ch ≠ bq) (hb : ∀ ch ∈ b, ch ≠ bq) (hc : ∀ ch ∈ c, ch ≠ bq) :
    handleCopyCode
        ⟨a ++ ("```js\nfoo()\n```".data ++ (b ++ ("```py\nbar()\n```".data ++ c)))⟩ =
      CopyOutcome.copied "foo()\n\nbar()" := by
  have h2 : matchAllBlocks ("```py\nbar()\n```".data ++ c) = ["bar()\n".data] := by
    have e : ("```py\nbar()\n```" : String).data ++ c =
        fence ++ ['p', 'y'] ++ '\n' :: ("bar()\n".data ++ fence ++ c) := by
      have hd : ("```py\nbar()\n```" : String).data =
          fence ++ ['p', 'y'] ++ '\n' :: ("bar()\n".data ++ fence) := by decide
      rw [hd]; simp
    rw [e, matchAllBlocks_block ['p', 'y'] _ _ (by decide) (by decide),
      matchAllBlocks_eq_nil_of_no_tbt (hasTBT_eq_false_of_no_bq hc)]
  have h1 : matchAllBlocks
      ("```js\nfoo()\n```".data ++ (b ++ ("```py\nbar()\n```".data ++ c))) =
      ["foo()\n".data, "bar()\n".data] := by
    have e : ("```js\nfoo()\n```" : String).data ++
        (b ++ ("```py\nbar()\n```".data ++ c)) =
        fence ++ ['j', 's'] ++ '\n' ::
          ("foo()\n".data ++ fence ++ (b ++ ("```py\nbar()\n```".data ++ c))) := by
      have hd : ("```js\nfoo()\n```" : String).data =
          fence ++ ['j', 's'] ++ '\n' :: ("foo()\n".data ++ fence) := by decide
      rw [hd]; simp
    rw [e, matchAllBlocks_block ['j', 's'] _ _ (by decide) (by decide),
      matchAllBlocks_append_no_bq hb, h2]
  have hall : matchAllBlocks
      (a ++ ("```js\nfoo()\n```".data ++ (b ++ ("```py\nbar()\n```".data ++ c)))) =
      ["foo()\n".data, "bar()\n".data] := by
    rw [matchAllBlocks_append_no_bq ha, h1]
  have hne : (⟨a ++ ("```js\nfoo()\n```".data ++
      (b ++ ("```py\nbar()\n```".data ++ c)))⟩ : String) ≠ "" := by
    intro hcontra
    have hnil := congrArg String.data hcontra
    simp at hnil
  have hext : extractCodeBlocks
      ⟨a ++ ("```js\nfoo()\n```".data ++ (b ++ ("```py\nbar()\n```".data ++ c)))⟩ =
      ["foo()", "bar()"] := by
    unfold extractCodeBlocks
    rw [show (⟨a ++ ("```js\nfoo()\n```".data ++
      (b ++ ("```py\nbar()\n```".data ++ c)))⟩ : String).data =
      a ++ ("```js\nfoo()\n```".data ++ (b ++ ("```py\nbar()\n```".data ++ c)))
      from rfl, hall]
    decide
  unfold handleCopyCode
  rw [if_neg hne]
  simp only [hext]
  decide

/-- C1 witness: a concrete review with prose around and between the two
fenced blocks. -/
theorem copyCode_two_blocks_witness :
    (∀ ch ∈ ("Review: " : String).data, ch ≠ bq) ∧
    handleCopyCode ⟨("Review: " : String).data ++ ("```js\nfoo()\n```".data ++
        ((" then " : String).data ++ ("```py\nbar()\n```".data ++
          (" done" : String).data)))⟩ = CopyOutcome.copied "foo()\n\nbar()" :=
  ⟨by decide,
    copyCode_two_blocks ("Review: " : String).data (" then " : String).data
      (" done" : String).data (by decide) (by decide) (by decide)⟩

/-- C2: the extraction is non-greedy per block and round-trips: the review
text decomposes into the matches in document order, each capture is the
literal text standing between its own opening and closing fence and
contains no triple backtick (so no single match spans from inside one block
across a closing fence into a second block), and the returned strings are
exactly the captures, changed only by leading/trailing whitespace
trimming. -/
theorem copyCode_extraction_nonGreedy_roundtrip (s : List Char) :
    ∃ segs rem,
      reassemble segs rem = s ∧
      segs.map (fun seg => seg.2.2) = matchAllBlocks s ∧
      (∀ seg ∈ segs, hasTBT seg.2.2 = false ∧ ∀ ch ∈ seg.2.1, isWordChar ch = true) ∧
      extractCodeBlocks ⟨s⟩ =
        (matchAllBlocks s).map fun content => (⟨trimChars content⟩ : String) := by
  obtain ⟨segs, rem, h1, h2, h3⟩ := blocks_decomposition_aux s.length s le_rfl
  exact ⟨segs, rem, h1, h2, h3, rfl⟩

/-- C3: for every non-empty-after-trim code input, a submit drives the
loading flag through exactly one false-true-false cycle, and on every
settlement path the loading flag ends false. -/
theorem submit_loading_cycle (s : ClientState) (outcome : SubmitOutcome)
    (hcode : jsTrim s.code ≠ "") (hidle : s.loading = false) :
    (submitHandler s outcome).loadingTrace = [false, true, false] ∧
    (submitHandler s outcome).finalState.loading = false := by
  unfold submitHandler
  rw [if_neg hcode]
  cases outcome with
  | success d => exact ⟨by rw [hidle], rfl⟩
  | failure => exact ⟨by rw [hidle], rfl⟩

/-- C3 witness. -/
theorem submit_loading_cycle_witness :
    jsTrim (ClientState.mk "x" "old" false).code ≠ "" ∧
    ((submitHandler ⟨"x", "old", false⟩ SubmitOutcome.failure).loadingTrace =
        [false, true, false] ∧
      (submitHandler ⟨"x", "old", false⟩ SubmitOutcome.failure).finalState.loading =
        false) :=
  ⟨by decide, submit_loading_cycle ⟨"x", "old", false⟩ SubmitOutcome.failure
    (by decide) rfl⟩

/-- C4: for every code input that is empty after trimming, submit is a
no-op: no POST is dispatched, and neither the state (so neither the loading
flag nor the stored review) nor anything else changes; the loading flag is
never touched. -/
theorem submit_empty_noop (s : ClientState) (outcome : SubmitOutcome)
    (h : jsTrim s.code = "") :
    (submitHandler s outcome).networkCalls = [] ∧
    (submitHandler s outcome).finalState = s ∧
    (submitHandler s outcome).loadingTrace = [s.loading] := by
  unfold submitHandler
  rw [if_pos h]
  exact ⟨rfl, rfl, rfl⟩

/-- C4 witness: whitespace-only code. -/
theorem submit_empty_noop_witness :
    jsTrim (ClientState.mk "  \n " "r" false).code = "" ∧
    ((submitHandler ⟨"  \n ", "r", false⟩
        (SubmitOutcome.success (ResponseData.strData "d"))).networkCalls = [] ∧
      (submitHandler ⟨"  \n ", "r", false⟩
        (SubmitOutcome.success (ResponseData.strData "d"))).finalState =
        ⟨"  \n ", "r", false⟩ ∧
      (submitHandler ⟨"  \n ", "r", false⟩
        (SubmitOutcome.success (ResponseData.strData "d"))).loadingTrace = [false]) :=
  ⟨by decide, submit_empty_noop ⟨"  \n ", "r", false⟩
    (SubmitOutcome.success (ResponseData.strData "d")) (by decide)⟩

/-- C5: a non-empty review with zero fenced blocks makes `handleCopyCode`
signal "No code found" and write nothing to the clipboard. -/
theorem copyCode_no_blocks (review : String) (hne : review ≠ "")
    (hz : extractCodeBlocks review = []) :
    handleCopyCode review = CopyOutcome.noCodeFound ∧
    clipboardWrites (handleCopyCode review) = [] := by
  have hout : handleCopyCode review = CopyOutcome.noCodeFound := by
    unfold handleCopyCode
    rw [if_neg hne]
    simp only [hz]
    rfl
  exact ⟨hout, by rw [hout]; rfl⟩

/-- C5 witness. -/
theorem copyCode_no_blocks_witness :
    ("just prose" : String) ≠ "" ∧ extractCodeBlocks "just prose" = [] ∧
    (handleCopyCode "just prose" = CopyOutcome.noCodeFound ∧
      clipboardWrites (handleCopyCode "just prose") = []) :=
  ⟨by decide, by decide, copyCode_no_blocks "just prose" (by decide) (by decide)⟩

/-- C6: with no review present both copy handlers signal "nothing to copy"
and write nothing; with a review present `handleCopyAll` copies the full
raw review text. -/
theorem copy_handlers_no_result (review : String) (hne : review ≠ "") :
    handleCopyAll "" = CopyOutcome.nothingToCopy ∧
    handleCopyCode "" = CopyOutcome.nothingToCopy ∧
    clipboardWrites (handleCopyAll "") = [] ∧
    clipboardWrites (handleCopyCode "") = [] ∧
    handleCopyAll review = CopyOutcome.copied review := by
  refine ⟨by decide, by decide, by decide, by decide, ?_⟩
  unfold handleCopyAll
  rw [if_neg hne]

/-- C6 witness. -/
theorem copy_handlers_no_result_witness :
    ("the review" : String) ≠ "" ∧
    (handleCopyAll "" = CopyOutcome.nothingToCopy ∧
      handleCopyCode "" = CopyOutcome.nothingToCopy ∧
      clipboardWrites (handleCopyAll "") = [] ∧
      clipboardWrites (handleCopyCode "") = [] ∧
      handleCopyAll "the review" = CopyOutcome.copied "the review") :=
  ⟨by decide, copy_handlers_no_result "the review" (by decide)⟩

/-- C7: when the gateway POST rejects, the client shows the failure toast,
the stored review is exactly what it was before the submission, and the
loading flag resets to false. -/
theorem submit_failure_preserves_review (s : ClientState) (h : jsTrim s.code ≠ "") :
    (submitHandler s SubmitOutcome.failure).notifications =
      [Notification.toastFailure] ∧
    (submitHandler s SubmitOutcome.failure).finalState.review = s.review ∧
    (submitHandler s SubmitOutcome.failure).finalState.loading = false := by
  unfold submitHandler
  rw [if_neg h]
  exact ⟨rfl, rfl, rfl⟩

/-- C7 witness. -/
theorem submit_failure_preserves_review_witness :
    jsTrim (ClientState.mk "code" "earlier review" true).code ≠ "" ∧
    ((submitHandler ⟨"code", "earlier review", true⟩
        SubmitOutcome.failure).notifications = [Notification.toastFailure] ∧
      (submitHandler ⟨"code", "earlier review", true⟩
        SubmitOutcome.failure).finalState.review = "earlier review" ∧
      (submitHandler ⟨"code", "earlier review", true⟩
        SubmitOutcome.failure).finalState.loading = false) :=
  ⟨by decide, submit_failure_preserves_review ⟨"code", "earlier review", true⟩
    (by decide)⟩

/-- C8: any provider-call failure is caught, logged and re-signaled to the
caller as the same failure, whatever its kind; exactly one provider call is
made (no retry); on success the extracted response text is returned
verbatim. -/
theorem gateway_no_retry_verbatim (t e : String) :
    (main (ProviderResult.ok t)).result = Except.ok t ∧
    (main (ProviderResult.ok t)).providerCalls = 1 ∧
    (main (ProviderResult.ok t)).logs = [] ∧
    (main (ProviderResult.err e)).result = Except.error e ∧
    (main (ProviderResult.err e)).providerCalls = 1 ∧
    (main (ProviderResult.err e)).logs = ["Error generating content: " ++ e] :=
  ⟨rfl, rfl, rfl, rfl, rfl, rfl⟩

/-- C9: a successful submission clears the code input to the empty string,
while a failed submission leaves the code input unchanged. -/
theorem submit_code_clearing (s : ClientState) (d : ResponseData)
    (h : jsTrim s.code ≠ "") :
    (submitHandler s (SubmitOutcome.success d)).finalState.code = "" ∧
    (submitHandler s SubmitOutcome.failure).finalState.code = s.code := by
  unfold submitHandler
  rw [if_neg h, if_neg h]
  exact ⟨rfl, rfl⟩

/-- C9 witness. -/
theorem submit_code_clearing_witness :
    jsTrim (ClientState.mk "let x = 1" "r" false).code ≠ "" ∧
    ((submitHandler ⟨"let x = 1", "r", false⟩
        (SubmitOutcome.success (ResponseData.strData "ok"))).finalState.code = "" ∧
      (submitHandler ⟨"let x = 1", "r", false⟩
        SubmitOutcome.failure).finalState.code = "let x = 1") :=
  ⟨by decide, submit_code_clearing ⟨"let x = 1", "r", false⟩
    (ResponseData.strData "ok") (by decide)⟩

/-- C10: an opening fence with word-character tag and newline but no later
closing triple backtick yields no extracted block: the unterminated block
is treated as zero blocks, not extracted to end-of-text. -/
theorem copyCode_unterminated_fence (a w rest : List Char)
    (ha : ∀ ch ∈ a, ch ≠ bq) (hw : ∀ ch ∈ w, isWordChar ch = true)
    (hrest : hasTBT rest = false) :
    extractCodeBlocks ⟨a ++ (fence ++ (w ++ '\n' :: rest))⟩ = [] := by
  have hwbq : ∀ ch ∈ w, ch ≠ bq := by
    intro ch hch heq
    have hword := hw ch hch
    rw [heq] at hword
    exact absurd hword (by decide)
  have hX : hasTBT (w ++ '\n' :: rest) = false := by
    rw [hasTBT_append_no_bq hwbq, hasTBT,
      startsFence_cons_false _ (by decide), Bool.false_or, hrest]
  have htag : (w ++ '\n' :: rest).dropWhile isWordChar = '\n' :: rest := by
    rw [List.dropWhile_append_of_pos hw, List.dropWhile_cons_of_neg (by decide)]
  have hfc : findClose rest = none := findClose_of_no_tbt hrest
  unfold extractCodeBlocks
  rw [show (⟨a ++ (fence ++ (w ++ '\n' :: rest))⟩ : String).data =
    a ++ (fence ++ (w ++ '\n' :: rest)) from rfl]
  rw [matchAllBlocks_append_no_bq ha,
    matchAllBlocks_fence_fail_close htag hfc]
  have h2 : hasTBT (bq :: bq :: (w ++ '\n' :: rest)) = false := by
    cases w with
    | nil =>
      simp only [List.nil_append]
      rw [hasTBT, startsFence_false_of_third _ (by decide), Bool.false_or,
        hasTBT, startsFence_false_of_second _ (by decide), Bool.false_or]
      simpa using hX
    | cons w₀ wt =>
      have hw₀ : w₀ ≠ bq := hwbq w₀ (List.mem_cons_self ..)
      simp only [List.cons_append]
      rw [hasTBT, startsFence_false_of_third _ hw₀, Bool.false_or,
        hasTBT, startsFence_false_of_second _ hw₀, Bool.false_or]
      simpa using hX
  rw [matchAllBlocks_eq_nil_of_no_tbt h2]
  rfl

/-- C10 witness: a review whose only fence is never closed. -/
theorem copyCode_unterminated_fence_witness :
    (∀ ch ∈ ("pre " : String).data, ch ≠ bq) ∧
    hasTBT ("\nnothing closes this" : String).data.tail = false ∧
    extractCodeBlocks ⟨("pre " : String).data ++ (fence ++
      (("js" : String).data ++ '\n' :: ("nothing closes this" : String).data))⟩ = [] :=
  ⟨by decide, by decide,
    copyCode_unterminated_fence ("pre " : String).data ("js" : String).data
      ("nothing closes this" : String).data (by decide) (by decide) (by decide)⟩

end AiReview
